import Mathlib

/-!
Verification development for the pyRVEA surrogate-model optimizer.

Shallow embedding of the Population core (`pyrvea/Population/Population.py`),
the EvoNN and EvoDN2 genome evaluators
(`pyrvea/Problem/evonn_problem.py`, `pyrvea/Problem/evodn2_problem.py`)
and the bounded polynomial mutation operator
(`pyrvea/Recombination/bounded_polynomial_mutation.py`).

Numeric values (numpy float arrays) are modelled by rationals; matrices by
lists of row vectors.  Transcendental library primitives (exp-based
activations, `np.log`, fractional powers, and the SVD-based
`np.linalg.lstsq`) are parameters of the embedding: every theorem holds for
an arbitrary choice of those functions, which matches the spec's treatment
of them as black-box numerics.
-/

namespace PyRVEA

/-! ### Rational vectors and matrices (numpy 1-D / 2-D arrays) -/

abbrev Vec := List ℚ

abbrev Mat := List Vec

/-- Elementwise sum of two vectors (`numpy +` on equal-shape 1-D arrays). -/
def vecAdd (a b : Vec) : Vec := List.zipWith (fun x y => x + y) a b

/-- Scale a vector by a constant. -/
def scaleVec (c : ℚ) (v : Vec) : Vec := v.map (fun x => c * x)

/-- Number of columns of a matrix (length of its first row). -/
def numCols (B : Mat) : ℕ := (B.headD []).length

/-- Row vector times matrix: linear combination of the rows of `B` with the
coefficients of `r` (the row-level view of `np.dot`). -/
def dotRV (r : Vec) (B : Mat) : Vec :=
  (List.zip r B).foldr (fun p acc => vecAdd (scaleVec p.1 p.2) acc)
    (List.replicate (numCols B) 0)

/-- Matrix product, `np.dot` on 2-D arrays. -/
def matMul (A B : Mat) : Mat := A.map (fun r => dotRV r B)

/-- Dot product of two vectors. -/
def dotV (a b : Vec) : ℚ := (List.zipWith (fun x y => x * y) a b).sum

/-- Matrix times column vector (`np.dot(Z, w)` with a 1-D right operand). -/
def matVecMul (A : Mat) (v : Vec) : Vec := A.map (fun r => dotV r v)

/-- Elementwise absolute value of a matrix (`np.abs`). -/
def absMat (M : Mat) : Mat := M.map (fun r => r.map (fun x => |x|))

/-- Sum of all entries of a matrix (`np.sum` on a 2-D array). -/
def matSum (M : Mat) : ℚ := (M.map (fun r => r.sum)).sum

/-- `layer[1:, :]`: the non-bias rows of a weight matrix (row 0 is the bias). -/
def dropBias (layer : Mat) : Mat := layer.drop 1

/-- `layer[0]`: the bias row of a weight matrix. -/
def biasRow (layer : Mat) : Vec := layer.headD []

/-- `np.count_nonzero` on a 1-D array. -/
def countNonzeroV (v : Vec) : ℕ := (v.filter (fun x => decide (x ≠ 0))).length

/-- `np.count_nonzero` on a 2-D array. -/
def countNonzeroM (M : Mat) : ℕ := (M.map countNonzeroV).sum

/-! ### EvoDN2 subnet complexity (`EvoDN2.activation`, evodn2_problem.py 145-181)

The running accumulator `subnet_complexity` starts as the Python scalar `1`
and is threaded through `np.dot`; `np.dot(scalar, M)` is elementwise
scaling while `np.dot(M, N)` is the matrix product, so the accumulator
lives in a scalar-or-matrix union type. -/

/-- A numpy value that is either a 0-D scalar or a 2-D array. -/
inductive NpVal where
  | scalar (c : ℚ)
  | mat (M : Mat)

/-- `np.dot(v, M)`: scalar `v` multiplies elementwise, matrix `v` matrix-multiplies. -/
def npDot (v : NpVal) (M : Mat) : NpVal :=
  match v with
  | .scalar c => .mat (M.map (fun r => r.map (fun x => c * x)))
  | .mat A => .mat (matMul A M)

/-- `np.sum` of a scalar-or-matrix value. -/
def npSum (v : NpVal) : ℚ :=
  match v with
  | .scalar c => c
  | .mat M => matSum M

/-- The accumulated complexity of one subnet, exactly as the layer loop of
`EvoDN2.activation` computes it:
`subnet_complexity = np.dot(subnet_complexity, np.abs(layer[1:, :]))`
starting from the scalar `1`, followed by `np.sum`. -/
def subnetComplexityCode (subnet : List Mat) : ℚ :=
  npSum (subnet.foldl (fun acc layer => npDot acc (absMat (dropBias layer))) (NpVal.scalar 1))

/-- The complexity objective of `EvoDN2.activation`: the sum over subnets of
the accumulated subnet complexity (`complexity = np.sum(network_complexity)`). -/
def evodn2ComplexityCode (genome : List (List Mat)) : ℚ :=
  (genome.map subnetComplexityCode).sum

/-- Sum of the absolute values of the non-bias weights of one layer. -/
def layerAbsSum (layer : Mat) : ℚ := matSum (absMat (dropBias layer))

/-- Modelled from the spec: "Complexity for a subnetwork accumulates as the
running product, across its layers, of the sum of absolute non-bias
weights" — the per-subnet running product of per-layer absolute-weight sums. -/
def subnetComplexitySpec (subnet : List Mat) : ℚ :=
  (subnet.map layerAbsSum).prod

/-- Modelled from the spec: "total complexity is the sum of all
subnetworks' accumulated complexity" with the per-subnet product-of-sums rule. -/
def evodn2ComplexitySpec (genome : List (List Mat)) : ℚ :=
  (genome.map subnetComplexitySpec).sum

/-- A two-layer subnet on which the matrix-product accumulation of the code
and the product-of-sums rule of the spec disagree: the first layer has
non-bias row `[1, 0]`, the second has non-bias rows `[0]` and `[1]`. -/
def subnetCE : List Mat := [[[0, 0], [1, 0]], [[0], [0], [1]]]

theorem subnetComplexityCode_single (l : Mat) :
    subnetComplexityCode [l] = layerAbsSum l := by
  simp [subnetComplexityCode, npDot, npSum, layerAbsSum, matSum, absMat,
    List.map_map, Function.comp_def, one_mul]

theorem subnetComplexitySpec_single (l : Mat) :
    subnetComplexitySpec [l] = layerAbsSum l := by
  simp [subnetComplexitySpec]

/-- C3 counterexample: on the single-subnet genome `[subnetCE]` the complexity
computed by `EvoDN2.activation` (sum of the entries of the matrix product of
the layers' absolute non-bias weight matrices) is `0`, while the spec's
running product of per-layer absolute-weight sums is `1`: the claimed
equality fails on this concrete genome. -/
theorem evodn2_complexity_product_of_sums_counterexample :
    evodn2ComplexityCode [subnetCE] ≠ evodn2ComplexitySpec [subnetCE] := by
  have h1 : evodn2ComplexityCode [subnetCE] = 0 := by
    norm_num [evodn2ComplexityCode, subnetComplexityCode, subnetCE, npDot, npSum,
      matSum, matMul, absMat, dropBias, dotRV, numCols, vecAdd, scaleVec]
  have h2 : evodn2ComplexitySpec [subnetCE] = 1 := by
    norm_num [evodn2ComplexitySpec, subnetComplexitySpec, subnetCE, layerAbsSum,
      matSum, absMat, dropBias]
  rw [h1, h2]
  norm_num

/-- C3 (amended): for a modular genome in which every subnetwork consists of a
single layer, the complexity objective accumulated by `EvoDN2.activation`
equals the spec's sum over subnetworks of the running product, across layers,
of the sum of absolute non-bias weights.  (For subnetworks with two or more
layers the code instead multiplies the absolute weight matrices as matrices,
and the two formulas differ: see the counterexample.) -/
theorem evodn2_complexity_single_layer (genome : List (List Mat))
    (h : ∀ s ∈ genome, s.length = 1) :
    evodn2ComplexityCode genome = evodn2ComplexitySpec genome := by
  unfold evodn2ComplexityCode evodn2ComplexitySpec
  induction genome with
  | nil => rfl
  | cons s rest ih =>
    have hs : s.length = 1 := h s (List.mem_cons_self s rest)
    have hrest : ∀ t ∈ rest, t.length = 1 := fun t ht => h t (List.mem_cons_of_mem s ht)
    obtain ⟨l, rfl⟩ := List.length_eq_one.mp hs
    simp only [List.map_cons, List.sum_cons, subnetComplexityCode_single,
      subnetComplexitySpec_single, ih hrest]

/-- Witness for C3: a concrete genome of two single-layer subnets satisfies
the hypothesis, and the amended theorem applies to it. -/
theorem evodn2_complexity_single_layer_witness :
    (∀ s ∈ [[[[0, 0], [1, 0]]], [[[0], [1]]]], List.length s = 1) ∧
      evodn2ComplexityCode [[[[0, 0], [1, 0]]], [[[0], [1]]]] =
        evodn2ComplexitySpec [[[[0, 0], [1, 0]]], [[[0], [1]]]] :=
  ⟨by decide, evodn2_complexity_single_layer [[[[0, 0], [1, 0]]], [[[0], [1]]]] (by decide)⟩

/-! ### Population core (`Population.py`)

A population row-pairs individuals with objective and fitness rows; rows
are vectors indexed by the objective dimension `m`.  The embedding follows
the unconstrained path of `evaluate_individual` (`num_of_constraints = 0`),
where the fitness row equals the objective row.  The evaluator
`problem.objectives` is a parameter `ev`. -/

/-- The population state: genome list, objectives/fitness matrices and the
running ideal and worst (nadir) fitness vectors. -/
structure Pop (α : Type) (m : ℕ) where
  individuals : List α
  objectives : List (Fin m → ℚ)
  fitness : List (Fin m → ℚ)
  ideal_fitness : Fin m → ℚ
  worst_fitness : Fin m → ℚ

/-- `Population.update_ideal_and_nadir` with its default `None` argument:
`ideal_fitness = np.amin(np.vstack((ideal_fitness, fitness)), axis=0)` and
`worst_fitness = np.amax(np.vstack((worst_fitness, fitness)), axis=0)` —
a per-column fold of `min`/`max` over all fitness rows, seeded with the
current bound. -/
def update_ideal_and_nadir (p : Pop α m) : Pop α m :=
  { p with
    ideal_fitness := fun j => (p.fitness.map (fun r => r j)).foldl min (p.ideal_fitness j)
    worst_fitness := fun j => (p.fitness.map (fun r => r j)).foldl max (p.worst_fitness j) }

/-- `Population.add` on the success path: each candidate is appended to the
genome list, its evaluated objective row is stacked onto the objectives and
fitness matrices (in input order), and afterwards `update_ideal_and_nadir`
runs once. -/
def Pop.add (ev : α → Fin m → ℚ) (p : Pop α m) (new_pop : List α) : Pop α m :=
  update_ideal_and_nadir
    { p with
      individuals := p.individuals ++ new_pop
      objectives := p.objectives ++ new_pop.map ev
      fitness := p.fitness ++ new_pop.map ev }

theorem foldl_min_of_le (l : List ℚ) (a : ℚ) (h : ∀ x ∈ l, a ≤ x) :
    l.foldl min a = a := by
  induction l generalizing a with
  | nil => rfl
  | cons x t ih =>
    have hx : min a x = a := min_eq_left (h x (List.mem_cons_self x t))
    simp only [List.foldl_cons, hx]
    exact ih a (fun y hy => h y (List.mem_cons_of_mem x hy))

theorem foldl_max_of_ge (l : List ℚ) (a : ℚ) (h : ∀ x ∈ l, x ≤ a) :
    l.foldl max a = a := by
  induction l generalizing a with
  | nil => rfl
  | cons x t ih =>
    have hx : max a x = a := max_eq_left (h x (List.mem_cons_self x t))
    simp only [List.foldl_cons, hx]
    exact ih a (fun y hy => h y (List.mem_cons_of_mem x hy))

theorem foldl_min_le_init (l : List ℚ) (a : ℚ) : l.foldl min a ≤ a := by
  induction l generalizing a with
  | nil => exact le_refl a
  | cons x t ih =>
    simp only [List.foldl_cons]
    exact le_trans (ih (min a x)) (min_le_left a x)

theorem init_le_foldl_max (l : List ℚ) (a : ℚ) : a ≤ l.foldl max a := by
  induction l generalizing a with
  | nil => exact le_refl a
  | cons x t ih =>
    simp only [List.foldl_cons]
    exact le_trans (le_max_left a x) (ih (max a x))

/-- C2: if on entry `ideal_fitness` is a per-column lower bound of every
existing fitness row and `worst_fitness` a per-column upper bound, then after
`Population.add` the new `ideal_fitness[j]` is exactly the minimum of the old
`ideal_fitness[j]` and the added rows' `j`-th entries (symmetrically for
`worst_fitness` with maximum), and the bounds are monotone: the ideal never
increases and the worst never decreases across the `add`. -/
theorem population_add_ideal_nadir (ev : α → Fin m → ℚ) (p : Pop α m)
    (new_pop : List α)
    (hI : ∀ r ∈ p.fitness, ∀ j, p.ideal_fitness j ≤ r j)
    (hW : ∀ r ∈ p.fitness, ∀ j, r j ≤ p.worst_fitness j) :
    (∀ j, (p.add ev new_pop).ideal_fitness j =
      ((new_pop.map ev).map (fun r => r j)).foldl min (p.ideal_fitness j)) ∧
    (∀ j, (p.add ev new_pop).worst_fitness j =
      ((new_pop.map ev).map (fun r => r j)).foldl max (p.worst_fitness j)) ∧
    (∀ j, (p.add ev new_pop).ideal_fitness j ≤ p.ideal_fitness j) ∧
    (∀ j, p.worst_fitness j ≤ (p.add ev new_pop).worst_fitness j) := by
  have hid : ∀ j, (p.add ev new_pop).ideal_fitness j =
      ((new_pop.map ev).map (fun r => r j)).foldl min (p.ideal_fitness j) := by
    intro j
    show ((p.fitness ++ new_pop.map ev).map (fun r => r j)).foldl min (p.ideal_fitness j) = _
    rw [List.map_append, List.foldl_append,
      foldl_min_of_le (p.fitness.map (fun r => r j)) (p.ideal_fitness j)
        (by
          intro x hx
          obtain ⟨r, hr, rfl⟩ := List.mem_map.mp hx
          exact hI r hr j)]
  have hwo : ∀ j, (p.add ev new_pop).worst_fitness j =
      ((new_pop.map ev).map (fun r => r j)).foldl max (p.worst_fitness j) := by
    intro j
    show ((p.fitness ++ new_pop.map ev).map (fun r => r j)).foldl max (p.worst_fitness j) = _
    rw [List.map_append, List.foldl_append,
      foldl_max_of_ge (p.fitness.map (fun r => r j)) (p.worst_fitness j)
        (by
          intro x hx
          obtain ⟨r, hr, rfl⟩ := List.mem_map.mp hx
          exact hW r hr j)]
  refine ⟨hid, hwo, fun j => ?_, fun j => ?_⟩
  · rw [hid j]
    exact foldl_min_le_init _ _
  · rw [hwo j]
    exact init_le_foldl_max _ _

/-- A concrete one-objective population: one fitness row `3`, ideal `1`,
worst `5`. -/
def popW : Pop ℕ 1 := ⟨[], [], [fun _ => 3], fun _ => 1, fun _ => 5⟩

/-- A concrete evaluator sending every individual to the fitness row `2`. -/
def evW : ℕ → Fin 1 → ℚ := fun _ _ => 2

/-- Witness for C2: `popW` satisfies the bound hypotheses, and adding two
individuals through `evW` never increases the ideal fitness. -/
theorem population_add_ideal_nadir_witness :
    ((∀ r ∈ popW.fitness, ∀ j, popW.ideal_fitness j ≤ r j) ∧
      (∀ r ∈ popW.fitness, ∀ j, r j ≤ popW.worst_fitness j)) ∧
    (∀ j, (popW.add evW [7, 8]).ideal_fitness j ≤ popW.ideal_fitness j) :=
  ⟨⟨by decide, by decide⟩,
    (population_add_ideal_nadir evW popW [7, 8] (by decide) (by decide)).2.2.1⟩

/-! ### `Population.add` under evaluator failure (C5)

`Population.add` and `append_individual` contain no exception handling: a
`NumericalError` raised inside `problem.objectives` propagates.  Python
state mutated before the raise persists, so the failing candidate's decision
variables are already on `self.individuals` (appended on line 140, before
`evaluate_individual` on line 141) while no objective/fitness row is
stacked, and neither the remaining candidates nor the final
`update_ideal_and_nadir` call are reached.  The embedding threads the
mutable population state explicitly and pairs it with an optional
propagating error. -/

/-- The failure an evaluator can raise (the spec's `NumericalError`). -/
inductive EvalFailure where
  | numericalError
  deriving DecidableEq

/-- `Population.append_individual` with a fallible evaluator: the individual
is appended first; evaluation then either errors (leaving the torn state) or
stacks the objective row onto the objectives and fitness matrices. -/
def Pop.append_individualE (ev : α → Except EvalFailure (Fin m → ℚ))
    (p : Pop α m) (ind : α) : Pop α m × Option EvalFailure :=
  let p1 : Pop α m := { p with individuals := p.individuals ++ [ind] }
  match ev ind with
  | .error e => (p1, some e)
  | .ok obj =>
    ({ p1 with objectives := p1.objectives ++ [obj], fitness := p1.fitness ++ [obj] },
      none)

/-- The candidate loop of `Population.add`: candidates are processed in input
order; a raised error aborts the loop and propagates. -/
def Pop.addLoopE (ev : α → Except EvalFailure (Fin m → ℚ)) :
    Pop α m → List α → Pop α m × Option EvalFailure
  | p, [] => (p, none)
  | p, ind :: rest =>
    match Pop.append_individualE ev p ind with
    | (p1, none) => Pop.addLoopE ev p1 rest
    | (p1, some e) => (p1, some e)

/-- `Population.add` with a fallible evaluator: run the candidate loop, then
update the ideal and nadir points — unless an error propagated, in which case
the update is never reached. -/
def Pop.addE (ev : α → Except EvalFailure (Fin m → ℚ)) (p : Pop α m)
    (new_pop : List α) : Pop α m × Option EvalFailure :=
  match Pop.addLoopE ev p new_pop with
  | (p1, none) => (update_ideal_and_nadir p1, none)
  | (p1, some e) => (p1, some e)

/-- An evaluator that fails on individual `0` and maps every other individual
to the fitness row `1`. -/
def evE : ℕ → Except EvalFailure (Fin 1 → ℚ) :=
  fun n => if n = 0 then .error .numericalError else .ok (fun _ => 1)

/-- The row `evE` produces on its success path. -/
def fE : ℕ → Fin 1 → ℚ := fun _ _ => 1

/-- An empty one-objective population. -/
def popE0 : Pop ℕ 1 := ⟨[], [], [], fun _ => 0, fun _ => 0⟩

/-- C5 counterexample: in the batch `[0, 1]` the first candidate's evaluation
fails; `Population.add` then aborts the whole batch — the error propagates,
the failing candidate is appended without any sentinel objective row, and
candidate `1` is never processed — contradicting the claim that the failing
candidate receives sentinel worst-case objectives and the rest of the batch
is still handled. -/
theorem population_add_partial_failure_counterexample :
    (Pop.addE evE popE0 [0, 1]).2 = some EvalFailure.numericalError ∧
    (Pop.addE evE popE0 [0, 1]).1.individuals = [0] ∧
    (Pop.addE evE popE0 [0, 1]).1.objectives = [] := by
  refine ⟨rfl, rfl, rfl⟩

/-- C5 (amended): candidates are processed in input order, but a single
failing evaluation aborts the batch: every candidate before the failing one
is fully inserted (decision variables plus objective and fitness rows, in
input order), the failing candidate's decision variables are appended with no
objective/fitness row, the remaining candidates are never touched, the
ideal/nadir update is skipped, and the error propagates to the caller. -/
theorem population_add_aborts_on_failure (ev : α → Except EvalFailure (Fin m → ℚ))
    (f : α → Fin m → ℚ) (p : Pop α m) (pre : List α) (bad : α) (post : List α)
    (e : EvalFailure)
    (hpre : ∀ a ∈ pre, ev a = .ok (f a)) (hbad : ev bad = .error e) :
    Pop.addE ev p (pre ++ bad :: post) =
      ({ p with
          individuals := p.individuals ++ pre ++ [bad]
          objectives := p.objectives ++ pre.map f
          fitness := p.fitness ++ pre.map f }, some e) := by
  induction pre generalizing p with
  | nil =>
    simp [Pop.addE, Pop.addLoopE, Pop.append_individualE, hbad]
  | cons a rest ih =>
    have ha : ev a = .ok (f a) := hpre a (List.mem_cons_self a rest)
    have hrest : ∀ x ∈ rest, ev x = .ok (f x) :=
      fun x hx => hpre x (List.mem_cons_of_mem a hx)
    have step : Pop.addE ev p ((a :: rest) ++ bad :: post) =
        Pop.addE ev
          { p with
              individuals := p.individuals ++ [a]
              objectives := p.objectives ++ [f a]
              fitness := p.fitness ++ [f a] } (rest ++ bad :: post) := by
      simp [Pop.addE, Pop.addLoopE, Pop.append_individualE, ha]
    rw [step, ih _ hrest]
    simp

/-- Witness for C5: the concrete batch `[1] ++ 0 :: [2]` on the empty
population satisfies the hypotheses of the amended theorem — candidate `1`
evaluates fine, candidate `0` raises — and the theorem applies. -/
theorem population_add_aborts_on_failure_witness :
    ((∀ a ∈ [1], evE a = .ok (fE a)) ∧ evE 0 = .error EvalFailure.numericalError) ∧
    Pop.addE evE popE0 ([1] ++ 0 :: [2]) =
      ({ popE0 with
          individuals := popE0.individuals ++ [1] ++ [0]
          objectives := popE0.objectives ++ [1].map fE
          fitness := popE0.fitness ++ [1].map fE }, some EvalFailure.numericalError) :=
  ⟨⟨by intro a ha; simp only [List.mem_singleton] at ha; subst ha; rfl, rfl⟩,
    population_add_aborts_on_failure evE fE popE0 [1] 0 [2]
      EvalFailure.numericalError
      (by intro a ha; simp only [List.mem_singleton] at ha; subst ha; rfl) rfl⟩

/-! ### `Population.delete_or_keep` (C6, C10)

The method builds a boolean mask over `len(self.individuals)` with `False`
exactly at the given indices, slices every row store by the mask (`delete`
survivors) and by its negation (`keep` survivors), and only then dispatches
on the mode string; a mode other than `"delete"` and `"keep"` assigns
nothing.  Rows here are plain vectors, and the four stores are separate
fields as in the source. -/

/-- Population state as `delete_or_keep` sees it. -/
structure PopD (α : Type) where
  individuals : List α
  objectives : List Vec
  fitness : List Vec
  constraint_violation : List Vec

/-- The boolean mask `np.ones(n, dtype=bool); mask[indices] = False`:
entry `i` is `True` iff `i` is not listed in `indices`. -/
def npMask (n : ℕ) (indices : List ℕ) : List Bool :=
  (List.range n).map (fun i => ! decide (i ∈ indices))

/-- Boolean-mask indexing `arr[mask]`: keep the entries whose mask bit is
`True`, in order. -/
def maskSelect : List Bool → List γ → List γ
  | b :: bs, x :: xs => if b then x :: maskSelect bs xs else maskSelect bs xs
  | _, _ => []

/-- `Population.delete_or_keep`. -/
def PopD.delete_or_keep (p : PopD α) (indices : List ℕ) (mode : String) : PopD α :=
  let mask := npMask p.individuals.length indices
  let nmask := mask.map (fun b => !b)
  let cvpair :=
    if 0 < p.constraint_violation.length then
      (maskSelect mask p.constraint_violation, maskSelect nmask p.constraint_violation)
    else (p.constraint_violation, p.constraint_violation)
  if mode = "delete" then
    { individuals := maskSelect mask p.individuals
      objectives := maskSelect mask p.objectives
      fitness := maskSelect mask p.fitness
      constraint_violation := cvpair.1 }
  else if mode = "keep" then
    { individuals := maskSelect nmask p.individuals
      objectives := maskSelect nmask p.objectives
      fitness := maskSelect nmask p.fitness
      constraint_violation := cvpair.2 }
  else p

/-- The complement of an index set inside `range n`. -/
def complementIdx (n : ℕ) (indices : List ℕ) : List ℕ :=
  (List.range n).filter (fun i => ! decide (i ∈ indices))

theorem npMask_complement (n : ℕ) (indices : List ℕ) :
    (npMask n (complementIdx n indices)).map (fun b => !b) = npMask n indices := by
  unfold npMask
  rw [List.map_map]
  refine List.map_congr_left ?_
  intro i hi
  simp only [Function.comp_apply, Bool.not_not, decide_eq_decide (p := i ∈ complementIdx n indices)]
  by_cases h : i ∈ indices
  · simp [complementIdx, List.mem_filter, h]
  · simp [complementIdx, List.mem_filter, h, hi]

theorem maskSelect_sublist (mask : List Bool) (xs : List γ) :
    (maskSelect mask xs).Sublist xs := by
  induction mask generalizing xs with
  | nil => cases xs <;> simp [maskSelect]
  | cons b bs ih =>
    cases xs with
    | nil => simp [maskSelect]
    | cons x t =>
      by_cases hb : b = true
      · simpa [maskSelect, hb] using (ih t).cons₂ x
      · simp only [Bool.not_eq_true] at hb
        simpa [maskSelect, hb] using (ih t).cons x

theorem delete_or_keep_delete_eq (p : PopD α) (indices : List ℕ) :
    p.delete_or_keep indices "delete" =
      { individuals := maskSelect (npMask p.individuals.length indices) p.individuals
        objectives := maskSelect (npMask p.individuals.length indices) p.objectives
        fitness := maskSelect (npMask p.individuals.length indices) p.fitness
        constraint_violation :=
          if 0 < p.constraint_violation.length then
            maskSelect (npMask p.individuals.length indices) p.constraint_violation
          else p.constraint_violation } := by
  unfold PopD.delete_or_keep
  by_cases hcv : 0 < p.constraint_violation.length <;> simp [hcv]

theorem delete_or_keep_keep_eq (p : PopD α) (indices : List ℕ) :
    p.delete_or_keep indices "keep" =
      { individuals :=
          maskSelect ((npMask p.individuals.length indices).map (fun b => !b)) p.individuals
        objectives :=
          maskSelect ((npMask p.individuals.length indices).map (fun b => !b)) p.objectives
        fitness :=
          maskSelect ((npMask p.individuals.length indices).map (fun b => !b)) p.fitness
        constraint_violation :=
          if 0 < p.constraint_violation.length then
            maskSelect ((npMask p.individuals.length indices).map (fun b => !b))
              p.constraint_violation
          else p.constraint_violation } := by
  unfold PopD.delete_or_keep
  by_cases hcv : 0 < p.constraint_violation.length <;> simp [hcv]

/-- C6: deleting a valid index set from a population produces exactly the
state that keeping the complement of that set produces on the original
population, and the survivors of the delete are subsequences (relative order
preserved) of the original row stores. -/
theorem delete_eq_keep_complement (p : PopD α) (indices : List ℕ)
    (hval : ∀ i ∈ indices, i < p.individuals.length) :
    p.delete_or_keep indices "delete" =
      p.delete_or_keep (complementIdx p.individuals.length indices) "keep" ∧
    (p.delete_or_keep indices "delete").individuals.Sublist p.individuals ∧
    (p.delete_or_keep indices "delete").objectives.Sublist p.objectives ∧
    (p.delete_or_keep indices "delete").fitness.Sublist p.fitness ∧
    (p.delete_or_keep indices "delete").constraint_violation.Sublist
      p.constraint_violation := by
  have hmask := npMask_complement p.individuals.length indices
  refine ⟨?_, ?_⟩
  · rw [delete_or_keep_delete_eq, delete_or_keep_keep_eq, hmask]
  · rw [delete_or_keep_delete_eq]
    refine ⟨maskSelect_sublist _ _, maskSelect_sublist _ _, maskSelect_sublist _ _, ?_⟩
    by_cases hcv : 0 < p.constraint_violation.length
    · simpa [hcv] using maskSelect_sublist (npMask p.individuals.length indices)
        p.constraint_violation
    · simp [hcv]

/-- A concrete three-individual population with one constraint row per
individual. -/
def popD3 : PopD ℕ :=
  ⟨[10, 11, 12], [[1], [2], [3]], [[1], [2], [3]], [[0], [0], [0]]⟩

/-- Witness for C6: deleting `[0, 2]` from `popD3` equals keeping the
complement `[1]`. -/
theorem delete_eq_keep_complement_witness :
    (∀ i ∈ [0, 2], i < popD3.individuals.length) ∧
    popD3.delete_or_keep [0, 2] "delete" =
      popD3.delete_or_keep (complementIdx popD3.individuals.length [0, 2]) "keep" :=
  ⟨by decide, (delete_eq_keep_complement popD3 [0, 2] (by decide)).1⟩

/-- C10: a mode string other than `"delete"` and `"keep"` matches neither
assignment branch of `delete_or_keep`: the call returns with no error and the
population's individuals, objectives, fitness and constraint_violation are
all unchanged. -/
theorem delete_or_keep_other_mode (p : PopD α) (indices : List ℕ) (mode : String)
    (hval : ∀ i ∈ indices, i < p.individuals.length)
    (h1 : mode ≠ "delete") (h2 : mode ≠ "keep") :
    p.delete_or_keep indices mode = p := by
  unfold PopD.delete_or_keep
  rw [if_neg h1, if_neg h2]

/-- Witness for C10: mode `"merge"` leaves `popD3` unchanged. -/
theorem delete_or_keep_other_mode_witness :
    ((∀ i ∈ [0], i < popD3.individuals.length) ∧
      ("merge" : String) ≠ "delete" ∧ ("merge" : String) ≠ "keep") ∧
    popD3.delete_or_keep [0] "merge" = popD3 :=
  ⟨⟨by decide, by decide, by decide⟩,
    delete_or_keep_other_mode popD3 [0] "merge" (by decide) (by decide) (by decide)⟩

/-! ### `min_error` selection (C7)

`EvoNN.select` and `EvoDN2.select` with criterion `min_error` compute
`np.argmin(pop.objectives[:, 0])` and index the population with it.
`np.argmin` returns the position of the first occurrence of the minimum. -/

/-- Minimum of a nonempty list seeded with its head (`np.min`). -/
def listMin : List ℚ → ℚ
  | [] => 0
  | x :: xs => xs.foldl min x

/-- `np.argmin` on a 1-D array: index of the first occurrence of the
minimum (`0` on an empty array, where numpy would raise). -/
def np_argmin : List ℚ → ℕ
  | [] => 0
  | x :: xs => if xs = [] then 0 else if x ≤ listMin xs then 0 else np_argmin xs + 1

/-- `EvoNN.select` / `EvoDN2.select` with criterion `min_error`:
`pop.individuals[np.argmin(pop.objectives[:, 0])]`.  Objective rows are
(training error, complexity) pairs; column 0 is the training error. -/
def selectMinError (individuals : List α) (objectives : List (ℚ × ℚ)) (d : α) : α :=
  individuals.getD (np_argmin (objectives.map Prod.fst)) d

/-- `EvoDN2.select` additionally returns `pop.fitness[lowest_error]` for the
same index. -/
def selectMinErrorDN (individuals : List α) (objectives : List (ℚ × ℚ))
    (fitness : List Vec) (d : α) : α × Vec :=
  (individuals.getD (np_argmin (objectives.map Prod.fst)) d,
    fitness.getD (np_argmin (objectives.map Prod.fst)) [])

theorem foldl_min_le_mem (t : List ℚ) (a x : ℚ) (hx : x ∈ t) : t.foldl min a ≤ x := by
  induction t generalizing a with
  | nil => cases hx
  | cons b t2 ih =>
    rcases List.mem_cons.mp hx with rfl | ht2
    · exact le_trans (foldl_min_le_init t2 (min a x)) (min_le_right a x)
    · exact ih (min a b) ht2

theorem foldl_min_choice (t : List ℚ) (a : ℚ) :
    t.foldl min a = a ∨ t.foldl min a ∈ t := by
  induction t generalizing a with
  | nil => exact Or.inl rfl
  | cons b t2 ih =>
    have hstep : (b :: t2).foldl min a = t2.foldl min (min a b) := rfl
    rcases ih (min a b) with h | h
    · rcases le_total a b with hab | hab
      · left
        rw [hstep, h, min_eq_left hab]
      · right
        rw [hstep, h, min_eq_right hab]
        exact List.mem_cons_self b t2
    · right
      rw [hstep]
      exact List.mem_cons_of_mem b h

theorem listMin_le (l : List ℚ) (x : ℚ) (hx : x ∈ l) : listMin l ≤ x := by
  cases l with
  | nil => cases hx
  | cons a t =>
    rcases List.mem_cons.mp hx with rfl | ht
    · exact foldl_min_le_init t x
    · exact foldl_min_le_mem t a x ht

theorem listMin_mem (l : List ℚ) (h : l ≠ []) : listMin l ∈ l := by
  cases l with
  | nil => exact absurd rfl h
  | cons b t =>
    rcases foldl_min_choice t b with hc | hc
    · rw [listMin, hc]
      exact List.mem_cons_self b t
    · exact List.mem_cons_of_mem b hc

theorem getD_mem_of_lt (l : List ℚ) (i : ℕ) (h : i < l.length) : l.getD i 0 ∈ l := by
  rw [List.getD_eq_getElem l 0 h]
  exact List.getElem_mem h

/-- The defining properties of `np_argmin` on a nonempty array: the returned
index is in range, the value there is a minimum of the whole array, and every
strictly earlier position holds a strictly larger value (first-occurrence
tie-breaking). -/
theorem np_argmin_spec (l : List ℚ) (h : l ≠ []) :
    np_argmin l < l.length ∧
    (∀ j, j < l.length → l.getD (np_argmin l) 0 ≤ l.getD j 0) ∧
    (∀ j, j < np_argmin l → l.getD j 0 > l.getD (np_argmin l) 0) := by
  induction l with
  | nil => exact absurd rfl h
  | cons x xs ih =>
    by_cases hxs : xs = []
    · subst hxs
      refine ⟨by simp [np_argmin], ?_, ?_⟩
      · intro j hj
        have hj0 : j = 0 := Nat.lt_one_iff.mp (by simpa using hj)
        subst hj0
        simp [np_argmin]
      · intro j hj
        simp [np_argmin] at hj
    · obtain ⟨hlt, hmin, hfirst⟩ := ih hxs
      by_cases hle : x ≤ listMin xs
      · have ha : np_argmin (x :: xs) = 0 := by simp [np_argmin, hxs, hle]
        refine ⟨by simp [ha], ?_, ?_⟩
        · intro j hj
          cases j with
          | zero => simp [ha]
          | succ k =>
            have hk : k < xs.length := by simpa using hj
            have hmem : xs.getD k 0 ∈ xs := getD_mem_of_lt xs k hk
            calc (x :: xs).getD (np_argmin (x :: xs)) 0 = x := by simp [ha]
              _ ≤ listMin xs := hle
              _ ≤ xs.getD k 0 := listMin_le xs _ hmem
              _ = (x :: xs).getD (k + 1) 0 := by simp
        · intro j hj
          rw [ha] at hj
          cases hj
      · have hgt : listMin xs < x := lt_of_not_le hle
        have ha : np_argmin (x :: xs) = np_argmin xs + 1 := by
          simp [np_argmin, hxs, hle]
        have hminval : xs.getD (np_argmin xs) 0 = listMin xs := by
          have h1 : listMin xs ≤ xs.getD (np_argmin xs) 0 :=
            listMin_le xs _ (getD_mem_of_lt xs _ hlt)
          obtain ⟨k, hk, hkeq⟩ := List.getElem_of_mem (listMin_mem xs hxs)
          have h2 := hmin k hk
          rw [List.getD_eq_getElem xs 0 hk, hkeq] at h2
          exact le_antisymm h2 h1
        refine ⟨by simpa [ha] using Nat.succ_lt_succ hlt, ?_, ?_⟩
        · intro j hj
          cases j with
          | zero =>
            have : (x :: xs).getD (np_argmin xs + 1) 0 = xs.getD (np_argmin xs) 0 := by simp
            rw [ha, this, hminval]
            simp only [List.getD_cons_zero]
            exact le_of_lt hgt
          | succ k =>
            have hk : k < xs.length := by simpa using hj
            have : (x :: xs).getD (np_argmin xs + 1) 0 = xs.getD (np_argmin xs) 0 := by simp
            rw [ha, this]
            simpa using hmin k hk
        · intro j hj
          rw [ha] at hj
          cases j with
          | zero =>
            have : (x :: xs).getD (np_argmin xs + 1) 0 = xs.getD (np_argmin xs) 0 := by simp
            rw [ha, this, hminval]
            simpa using hgt
          | succ k =>
            have hk : k < np_argmin xs := Nat.lt_of_succ_lt_succ hj
            have : (x :: xs).getD (np_argmin xs + 1) 0 = xs.getD (np_argmin xs) 0 := by simp
            rw [ha, this]
            simpa using hfirst k hk

/-- C7: on a nonempty population, `min_error` selection returns the
individual at the first index minimizing the training-error column of the
objectives matrix: the selected index is in range, its error is a global
minimum, every earlier index has strictly larger error, and both `EvoNN`'s
and `EvoDN2`'s selectors return the row stores at that index. -/
theorem select_min_error_spec (individuals : List α) (objectives : List (ℚ × ℚ))
    (fitness : List Vec) (d : α) (h : objectives ≠ []) :
    np_argmin (objectives.map Prod.fst) < objectives.length ∧
    (∀ j, j < objectives.length →
      (objectives.map Prod.fst).getD (np_argmin (objectives.map Prod.fst)) 0 ≤
        (objectives.map Prod.fst).getD j 0) ∧
    (∀ j, j < np_argmin (objectives.map Prod.fst) →
      (objectives.map Prod.fst).getD (np_argmin (objectives.map Prod.fst)) 0 <
        (objectives.map Prod.fst).getD j 0) ∧
    selectMinError individuals objectives d =
      individuals.getD (np_argmin (objectives.map Prod.fst)) d ∧
    selectMinErrorDN individuals objectives fitness d =
      (individuals.getD (np_argmin (objectives.map Prod.fst)) d,
        fitness.getD (np_argmin (objectives.map Prod.fst)) []) := by
  have hne : objectives.map Prod.fst ≠ [] := by
    intro hc
    exact h (List.map_eq_nil_iff.mp hc)
  obtain ⟨h1, h2, h3⟩ := np_argmin_spec (objectives.map Prod.fst) hne
  rw [List.length_map] at h1
  refine ⟨h1, ?_, ?_, rfl, rfl⟩
  · intro j hj
    exact h2 j (by simpa using hj)
  · intro j hj
    exact h3 j hj

/-- Witness for C7: the four-point objective matrix of the spec's scenario B
is nonempty and the theorem applies; numpy's first-minimum rule picks
index `0` here. -/
theorem select_min_error_spec_witness :
    (([((1 : ℚ), (5 : ℚ)), (2, 3), (3, 1), (2, 2)] : List (ℚ × ℚ)) ≠ []) ∧
    np_argmin (([((1 : ℚ), (5 : ℚ)), (2, 3), (3, 1), (2, 2)] : List (ℚ × ℚ)).map Prod.fst) <
      ([((1 : ℚ), (5 : ℚ)), (2, 3), (3, 1), (2, 2)] : List (ℚ × ℚ)).length :=
  ⟨by decide,
    (select_min_error_spec ([7] : List ℕ) [((1 : ℚ), (5 : ℚ)), (2, 3), (3, 1), (2, 2)]
      [[0]] 0 (by decide)).1⟩

/-! ### Bounded polynomial mutation (C9)

`bounded_polynomial_mutation.mutation` draws uniform arrays `k` and `miu`
shaped like the offspring, perturbs the entries with `k <= prob_mut`
(two disjoint formulas split on `miu < 0.5`), and finally clamps the whole
array to `[lower_limits, upper_limits]`.  The random draws are inputs here.
The integer power `** (dis_mut + 1)` is exact over the rationals, but the
fractional power `** (1 / (dis_mut + 1))` follows numpy float semantics:
a negative base yields NaN, every comparison against NaN is False (so NaN
slips through both clamp assignments), and NaN propagates through
arithmetic; the value of the root on a nonnegative base is the abstract
parameter `rootQ`.  A possibly-NaN float is modelled by `NpFloat`. -/

/-- A numpy float scalar: an ordinary (rational) value or NaN. -/
inductive NpFloat where
  | num (q : ℚ)
  | nan
  deriving DecidableEq

/-- numpy `<` on possibly-NaN scalars: any comparison involving NaN is
False. -/
def npLt : NpFloat → NpFloat → Bool
  | .num a, .num b => decide (a < b)
  | _, _ => false

/-- numpy `base ** (1 / (dis_mut + 1))`: NaN for a negative base, the
abstract nonnegative root `rootQ` otherwise. -/
def npRoot (rootQ : ℚ → ℚ) (base : ℚ) : NpFloat :=
  if base < 0 then .nan else .num (rootQ base)

/-- The final clamp of `mutation`:
`offspring[offspring > max_val] = max_val; offspring[offspring < min_val] = min_val`
at a single entry.  NaN fails both comparisons and passes through. -/
def npClamp (lo hi : ℚ) (v : NpFloat) : NpFloat :=
  let y1 := if npLt (.num hi) v then .num hi else v
  if npLt y1 (.num lo) then .num lo else y1

/-- `offspring_scaled = (offspring - min_val) / (max_val - min_val)` at a
single entry. -/
def offspring_scaled (x lo hi : ℚ) : ℚ := (x - lo) / (hi - lo)

/-- One entry of the mutated offspring array: the polynomial-mutation update
(two disjoint random branches; NaN from a negative fractional-power base
propagates through the update) followed by the clamp. -/
def mutateEntry (rootQ : ℚ → ℚ) (prob_mut : ℚ) (dis_mut : ℕ)
    (k mu x lo hi : ℚ) : NpFloat :=
  let y : NpFloat :=
    if k ≤ prob_mut ∧ mu < 1 / 2 then
      match npRoot rootQ (2 * mu +
          (1 - 2 * mu) * (1 - offspring_scaled x lo hi) ^ (dis_mut + 1)) with
      | .num r => .num (x + (hi - lo) * (r - 1))
      | .nan => .nan
    else if k ≤ prob_mut ∧ 1 / 2 ≤ mu then
      match npRoot rootQ (2 * (1 - mu) +
          2 * (mu - 1 / 2) * (offspring_scaled x lo hi) ^ (dis_mut + 1)) with
      | .num r => .num (x + (hi - lo) * (1 - r))
      | .nan => .nan
    else .num x
  npClamp lo hi y

/-- One row of `mutation`: entries are zipped with their random draws and the
per-column bounds (`min_val`/`max_val` broadcast `lower_limits` and
`upper_limits` across rows). -/
def mutationRow (rootQ : ℚ → ℚ) (prob_mut : ℚ) (dis_mut : ℕ)
    (krow murow row lows his : Vec) : List NpFloat :=
  (row.zip (krow.zip (murow.zip (lows.zip his)))).map
    (fun e => mutateEntry rootQ prob_mut dis_mut e.2.1 e.2.2.1 e.1 e.2.2.2.1 e.2.2.2.2)

/-- `bounded_polynomial_mutation.mutation` on the whole offspring array. -/
def mutation (rootQ : ℚ → ℚ) (prob_mut : ℚ) (dis_mut : ℕ)
    (kArr muArr offspring : Mat) (lower_limits upper_limits : Vec) :
    List (List NpFloat) :=
  (offspring.zip (kArr.zip muArr)).map
    (fun r => mutationRow rootQ prob_mut dis_mut r.2.1 r.2.2 r.1 lower_limits upper_limits)

/-- A possibly-NaN value that does lie in `[lo, hi]`. -/
def npInBounds (lo hi : ℚ) (v : NpFloat) : Prop :=
  ∃ q, v = NpFloat.num q ∧ lo ≤ q ∧ q ≤ hi

theorem npClamp_num_mem (lo hi v : ℚ) (h : lo ≤ hi) :
    npInBounds lo hi (npClamp lo hi (.num v)) := by
  simp only [npClamp]
  by_cases h1 : hi < v
  · rw [if_pos (show npLt (.num hi) (.num v) = true by simp [npLt, h1]),
      if_neg (show ¬ npLt (NpFloat.num hi) (.num lo) = true by
        simp [npLt, not_lt.mpr h])]
    exact ⟨hi, rfl, h, le_refl hi⟩
  · rw [if_neg (show ¬ npLt (.num hi) (.num v) = true by simp [npLt, h1])]
    by_cases h2 : v < lo
    · rw [if_pos (show npLt (NpFloat.num v) (.num lo) = true by simp [npLt, h2])]
      exact ⟨lo, rfl, le_refl lo, h⟩
    · rw [if_neg (show ¬ npLt (NpFloat.num v) (.num lo) = true by simp [npLt, h2])]
      exact ⟨v, rfl, not_lt.mp h2, not_lt.mp h1⟩

theorem npClamp_nan (lo hi : ℚ) : npClamp lo hi NpFloat.nan = NpFloat.nan := rfl

theorem not_npInBounds_nan (lo hi : ℚ) : ¬ npInBounds lo hi NpFloat.nan := by
  rintro ⟨q, hq, -⟩
  cases hq

/-- Under uniform draws in `[0, 1)` and an in-bounds input entry, both
fractional-power bases are nonnegative, so no NaN arises and the clamp lands
the entry in the box. -/
theorem mutateEntry_mem (rootQ : ℚ → ℚ) (prob_mut : ℚ) (dis_mut : ℕ)
    (k mu x lo hi : ℚ) (hlohi : lo < hi) (hmu0 : 0 ≤ mu) (hmu1 : mu < 1)
    (hx0 : lo ≤ x) (hx1 : x ≤ hi) :
    npInBounds lo hi (mutateEntry rootQ prob_mut dis_mut k mu x lo hi) := by
  have hpos : (0 : ℚ) < hi - lo := sub_pos.mpr hlohi
  have hs0 : 0 ≤ offspring_scaled x lo hi :=
    div_nonneg (sub_nonneg.mpr hx0) (le_of_lt hpos)
  have hs1 : offspring_scaled x lo hi ≤ 1 :=
    (div_le_one hpos).mpr (sub_le_sub_right hx1 lo)
  simp only [mutateEntry]
  by_cases h1 : k ≤ prob_mut ∧ mu < 1 / 2
  · rw [if_pos h1]
    have hbase : 0 ≤ 2 * mu +
        (1 - 2 * mu) * (1 - offspring_scaled x lo hi) ^ (dis_mut + 1) := by
      have hc : 0 ≤ 1 - 2 * mu := by linarith [h1.2]
      have hp : 0 ≤ (1 - offspring_scaled x lo hi) ^ (dis_mut + 1) :=
        pow_nonneg (by linarith) _
      have := mul_nonneg hc hp
      linarith
    simp only [npRoot]
    rw [if_neg (not_lt.mpr hbase)]
    exact npClamp_num_mem lo hi _ (le_of_lt hlohi)
  · rw [if_neg h1]
    by_cases h2 : k ≤ prob_mut ∧ 1 / 2 ≤ mu
    · rw [if_pos h2]
      have hbase : 0 ≤ 2 * (1 - mu) +
          2 * (mu - 1 / 2) * (offspring_scaled x lo hi) ^ (dis_mut + 1) := by
        have hc : 0 ≤ 2 * (mu - 1 / 2) := by linarith [h2.2]
        have hp : 0 ≤ (offspring_scaled x lo hi) ^ (dis_mut + 1) :=
          pow_nonneg hs0 _
        have := mul_nonneg hc hp
        linarith
      simp only [npRoot]
      rw [if_neg (not_lt.mpr hbase)]
      exact npClamp_num_mem lo hi _ (le_of_lt hlohi)
    · rw [if_neg h2]
      exact npClamp_num_mem lo hi _ (le_of_lt hlohi)

/-- C9 counterexample: input entry `-1` below the bounds `[0, 1]`, draws
`k = 0`, `miu = 9/10`: the second mutation branch's fractional-power base is
`2(1 - 9/10) + 2(9/10 - 1/2)(-1)^21 = -3/5 < 0`, numpy yields NaN, NaN fails
both clamp comparisons, and the returned entry is NaN — not within the
bounds.  The claim fails exactly on an entry whose input value was already
outside the bounds. -/
theorem mutation_nan_counterexample :
    mutation id 1 20 [[0]] [[9 / 10]] [[-1]] [0] [1] = [[NpFloat.nan]] ∧
      ¬ npInBounds 0 1 NpFloat.nan := by
  refine ⟨?_, not_npInBounds_nan 0 1⟩
  have hbase : (2 * (1 - 9 / 10) +
      2 * (9 / 10 - 1 / 2) * (offspring_scaled (-1) 0 1) ^ (20 + 1) : ℚ) < 0 := by
    norm_num [offspring_scaled]
  have hentry : mutateEntry id 1 20 0 (9 / 10) (-1) 0 1 = NpFloat.nan := by
    simp only [mutateEntry, npRoot]
    rw [if_neg (by norm_num), if_pos (by norm_num), if_pos hbase]
    rfl
  simp only [mutation, mutationRow, List.zip_cons_cons, List.zip_nil_left,
    List.zip_nil_right, List.map_cons, List.map_nil]
  rw [hentry]

/-- C9 (amended): under elementwise bounds `lower_limits < upper_limits`,
uniform draws in `[0, 1)` (as `np.random.random` produces), and input
entries that lie within their column bounds, every entry of the array
returned by bounded polynomial mutation is an ordinary number within the
bounds of its column — whether or not the entry was selected for mutation.
(For an input entry outside the bounds the returned entry can be NaN,
outside every box: see the counterexample.) -/
theorem mutation_respects_bounds (rootQ : ℚ → ℚ) (prob_mut : ℚ) (dis_mut : ℕ)
    (kArr muArr offspring : Mat) (lower_limits upper_limits : Vec)
    (hlu : ∀ j, j < upper_limits.length →
      lower_limits.getD j 0 < upper_limits.getD j 0)
    (hmu : ∀ row ∈ muArr, ∀ m ∈ row, 0 ≤ m ∧ m < 1)
    (hoff : ∀ row ∈ offspring, ∀ j, j < row.length → j < upper_limits.length →
      lower_limits.getD j 0 ≤ row.getD j 0 ∧ row.getD j 0 ≤ upper_limits.getD j 0) :
    ∀ i, ∀ hi : i < (mutation rootQ prob_mut dis_mut kArr muArr offspring
        lower_limits upper_limits).length,
    ∀ j, ∀ hj : j < ((mutation rootQ prob_mut dis_mut kArr muArr offspring
        lower_limits upper_limits)[i]).length,
      npInBounds (lower_limits.getD j 0) (upper_limits.getD j 0)
        (((mutation rootQ prob_mut dis_mut kArr muArr offspring
          lower_limits upper_limits)[i])[j]) := by
  intro i hi j hj
  unfold mutation at hi hj ⊢
  simp only [List.length_map, List.length_zip] at hi
  simp only [List.getElem_map] at hj ⊢
  unfold mutationRow at hj ⊢
  simp only [List.getElem_map, List.getElem_zip] at hj ⊢
  simp only [List.length_map, List.length_zip] at hj
  have hjh : j < upper_limits.length := by omega
  have hjl : j < lower_limits.length := by omega
  have hiM : i < muArr.length := by omega
  have hiO : i < offspring.length := by omega
  have hjM : j < (muArr[i]).length := by omega
  have hjO : j < (offspring[i]).length := by omega
  obtain ⟨hm0, hm1⟩ := hmu (muArr[i]) (List.getElem_mem hiM)
    ((muArr[i])[j]) (List.getElem_mem hjM)
  have hrow := hoff (offspring[i]) (List.getElem_mem hiO) j hjO hjh
  rw [List.getD_eq_getElem (offspring[i]) 0 hjO] at hrow
  have hlt := hlu j hjh
  rw [List.getD_eq_getElem lower_limits 0 hjl,
    List.getD_eq_getElem upper_limits 0 hjh] at hlt hrow ⊢
  exact mutateEntry_mem rootQ prob_mut dis_mut _ _ _ _ _ hlt hm0 hm1 hrow.1 hrow.2

/-- Witness for C9: bounds `[0] < [2]`, draw `miu = 0` in `[0, 1)` and
in-bounds input entry `1`: the amended theorem applies. -/
theorem mutation_respects_bounds_witness :
    ((∀ j, j < [(2 : ℚ)].length → [(0 : ℚ)].getD j 0 < [(2 : ℚ)].getD j 0) ∧
      (∀ row ∈ [[(0 : ℚ)]], ∀ m ∈ row, 0 ≤ m ∧ m < 1) ∧
      (∀ row ∈ [[(1 : ℚ)]], ∀ j, j < row.length → j < [(2 : ℚ)].length →
        [(0 : ℚ)].getD j 0 ≤ row.getD j 0 ∧ row.getD j 0 ≤ [(2 : ℚ)].getD j 0)) ∧
    ∀ i, ∀ hi : i < (mutation id 1 20 [[0]] [[0]] [[1]] [0] [2]).length,
    ∀ j, ∀ hj : j < ((mutation id 1 20 [[0]] [[0]] [[1]] [0] [2])[i]).length,
      npInBounds ([(0 : ℚ)].getD j 0) ([(2 : ℚ)].getD j 0)
        (((mutation id 1 20 [[0]] [[0]] [[1]] [0] [2])[i])[j]) :=
  ⟨⟨by decide, by decide, by decide⟩,
    mutation_respects_bounds id 1 20 [[0]] [[0]] [[1]] [0] [2]
      (by decide) (by decide) (by decide)⟩

/-! ### EvoNN evaluator and `akaike_corrected` selection (C4)

`EvoNN.activation` computes `act(X·w1[1:, :] + w1[0])`; `minimize_error`
delegates to `np.linalg.lstsq` (abstracted as `solver`, returning the
coefficient vector and the residual sum of squares); `calculate_complexity`
counts nonzero non-bias weights.  `information_criterion` computes
`k = count_nonzero(w1[1:, :]) + count_nonzero(w2)` and
`aicc = 2k + n·log(rss/n) + 2k(k+1)/(n - k - 1)` with Python integers `n`
and `k`, so the division raises `ZeroDivisionError` exactly when
`n - k - 1 == 0` (a negative denominator divides fine).  `np.log` is the
abstract parameter `logQ`. -/

/-- Errors the Python selection path can raise. -/
inductive PyError where
  | zeroDivisionError
  | indexError
  deriving DecidableEq

/-- `EvoNN.activation`: dot product with the non-bias rows, plus the
broadcast bias row, then the configured activation function. -/
def evonnActivation (act : ℚ → ℚ) (X w1 : Mat) : Mat :=
  (matMul X (dropBias w1)).map (fun row => (vecAdd row (biasRow w1)).map act)

/-- `EvoNN.minimize_error` with `opt_func = "llsq"`: the least-squares solve
is the abstract `solver`; predicted values are `Z · w2`. -/
def minimize_error (solver : Mat → Vec × ℚ) (activated_layer : Mat) :
    Vec × ℚ × Vec :=
  ((solver activated_layer).1, (solver activated_layer).2,
    matVecMul activated_layer (solver activated_layer).1)

/-- `EvoNN.loss_function`: mean squared error, or its square root (`sqrtQ`
abstract) for any other truthy loss name. -/
def loss_function (sqrtQ : ℚ → ℚ) (lossIsMse : Bool) (y_train predicted : Vec) : ℚ :=
  let mse := ((List.zipWith (fun a b => (a - b) ^ 2) y_train predicted).sum) /
    (y_train.length : ℚ)
  if lossIsMse then mse else sqrtQ mse

/-- `EvoNN.calculate_complexity`: `np.count_nonzero(w_matrix[1:, :])`. -/
def calculate_complexity (w_matrix : Mat) : ℕ := countNonzeroM (dropBias w_matrix)

/-- `EvoNN.information_criterion`.  `num_of_samples` and `k` are Python
integers, so the correction term's division raises `ZeroDivisionError` when
its denominator is exactly zero; otherwise the value is
`2k + n·log(rss/n) + 2k(k+1)/(n-k-1)`. -/
def information_criterion (logQ act : ℚ → ℚ) (solver : Mat → Vec × ℚ)
    (num_of_samples : ℕ) (X w1 : Mat) : Except PyError ℚ :=
  let z := evonnActivation act X w1
  let w2 := (solver z).1
  let rss := (solver z).2
  let k : ℕ := calculate_complexity w1 + countNonzeroV w2
  let den : ℤ := (num_of_samples : ℤ) - (k : ℤ) - 1
  if den = 0 then .error .zeroDivisionError
  else
    .ok ((2 * k : ℚ) + (num_of_samples : ℚ) * logQ (rss / (num_of_samples : ℚ)) +
      (2 * k * (k + 1) : ℚ) / (den : ℚ))

/-- The effective parameter count of a candidate: nonzero hidden-layer
weights plus nonzero output-layer weights, as `information_criterion`
computes it. -/
def effectiveParams (act : ℚ → ℚ) (solver : Mat → Vec × ℚ) (X w1 : Mat) : ℕ :=
  calculate_complexity w1 + countNonzeroV ((solver (evonnActivation act X w1)).1)

/-- The `for i in non_dom_front` loop of `EvoNN.select`: score every front
index in order; a raised error aborts the loop and propagates. -/
def akaikeScores (logQ act : ℚ → ℚ) (solver : Mat → Vec × ℚ)
    (num_of_samples : ℕ) (X : Mat) (individuals : List Mat) :
    List ℕ → Except PyError (List (ℚ × ℕ))
  | [] => .ok []
  | i :: rest =>
    match information_criterion logQ act solver num_of_samples X
        (individuals.getD i []) with
    | .error e => .error e
    | .ok c =>
      match akaikeScores logQ act solver num_of_samples X individuals rest with
      | .error e => .error e
      | .ok l => .ok ((c, i) :: l)

/-- Python's tuple order on `(info_c, i)` pairs, used by `info_c_rank.sort()`. -/
def pairLe (p q : ℚ × ℕ) : Prop := p.1 < q.1 ∨ (p.1 = q.1 ∧ p.2 ≤ q.2)

instance : DecidableRel pairLe := fun p q => by
  unfold pairLe
  infer_instance

/-- `EvoNN.select` with criterion `"akaike_corrected"`: score the front,
sort the `(score, index)` pairs, and return the individual of the best pair;
`info_c_rank[0]` on an empty front raises `IndexError`. -/
def select_akaike (logQ act : ℚ → ℚ) (solver : Mat → Vec × ℚ)
    (num_of_samples : ℕ) (X : Mat) (individuals : List Mat)
    (non_dom_front : List ℕ) : Except PyError Mat :=
  match akaikeScores logQ act solver num_of_samples X individuals non_dom_front with
  | .error e => .error e
  | .ok scores =>
    match List.insertionSort pairLe scores with
    | [] => .error .indexError
    | p :: _ => .ok (individuals.getD p.2 [])

theorem information_criterion_error_iff (logQ act : ℚ → ℚ)
    (solver : Mat → Vec × ℚ) (n : ℕ) (X w1 : Mat) (e : PyError) :
    information_criterion logQ act solver n X w1 = .error e ↔
      e = PyError.zeroDivisionError ∧
        (n : ℤ) - (effectiveParams act solver X w1 : ℤ) - 1 = 0 := by
  unfold information_criterion effectiveParams
  by_cases hden : (n : ℤ) - ((calculate_complexity w1 +
      countNonzeroV ((solver (evonnActivation act X w1)).1) : ℕ) : ℤ) - 1 = 0
  · rw [if_pos hden]
    constructor
    · intro h
      cases h
      exact ⟨rfl, hden⟩
    · intro h
      rw [h.1]
  · rw [if_neg hden]
    constructor
    · intro h
      cases h
    · intro h
      exact absurd h.2 hden

theorem akaikeScores_error_iff (logQ act : ℚ → ℚ) (solver : Mat → Vec × ℚ)
    (n : ℕ) (X : Mat) (individuals : List Mat) (front : List ℕ) :
    akaikeScores logQ act solver n X individuals front =
        .error PyError.zeroDivisionError ↔
      ∃ i ∈ front, (n : ℤ) - (effectiveParams act solver X (individuals.getD i []) : ℤ)
        - 1 = 0 := by
  induction front with
  | nil => simp [akaikeScores]
  | cons i rest ih =>
    simp only [akaikeScores]
    cases hinfo : information_criterion logQ act solver n X (individuals.getD i []) with
    | error e =>
      obtain ⟨he, hd⟩ :=
        (information_criterion_error_iff logQ act solver n X (individuals.getD i []) e).mp hinfo
      subst he
      simp only [true_iff]
      exact ⟨i, List.mem_cons_self i rest, hd⟩
    | ok c =>
      have hnotd : ¬((n : ℤ) -
          (effectiveParams act solver X (individuals.getD i []) : ℤ) - 1 = 0) := by
        intro hd
        have : information_criterion logQ act solver n X (individuals.getD i []) =
            .error PyError.zeroDivisionError :=
          (information_criterion_error_iff logQ act solver n X (individuals.getD i [])
            PyError.zeroDivisionError).mpr ⟨rfl, hd⟩
        rw [hinfo] at this
        cases this
      cases hrest : akaikeScores logQ act solver n X individuals rest with
      | error e =>
        rw [hrest] at ih
        simp only [List.mem_cons]
        constructor
        · intro h
          have he : e = PyError.zeroDivisionError := by
            cases h
            rfl
          obtain ⟨i2, hi2, hd2⟩ := ih.mp (by rw [he])
          exact ⟨i2, Or.inr hi2, hd2⟩
        · intro h
          obtain ⟨i2, hi2, hd2⟩ := h
          rcases hi2 with rfl | hi2
          · exact absurd hd2 hnotd
          · have := ih.mpr ⟨i2, hi2, hd2⟩
            rw [this]
      | ok l =>
        rw [hrest] at ih
        simp only [List.mem_cons]
        constructor
        · intro h
          cases h
        · intro h
          obtain ⟨i2, hi2, hd2⟩ := h
          rcases hi2 with rfl | hi2
          · exact absurd hd2 hnotd
          · cases ih.mpr ⟨i2, hi2, hd2⟩

theorem akaikeScores_ok_length (logQ act : ℚ → ℚ) (solver : Mat → Vec × ℚ)
    (n : ℕ) (X : Mat) (individuals : List Mat) (front : List ℕ)
    (l : List (ℚ × ℕ))
    (h : akaikeScores logQ act solver n X individuals front = .ok l) :
    l.length = front.length := by
  induction front generalizing l with
  | nil =>
    unfold akaikeScores at h
    cases h
    rfl
  | cons i rest ih =>
    unfold akaikeScores at h
    cases hinfo : information_criterion logQ act solver n X (individuals.getD i []) with
    | error e =>
      rw [hinfo] at h
      cases h
    | ok c =>
      rw [hinfo] at h
      cases hrest : akaikeScores logQ act solver n X individuals rest with
      | error e =>
        rw [hrest] at h
        cases h
      | ok l2 =>
        rw [hrest] at h
        cases h
        simpa using ih l2 hrest

/-- An akaike score list error is always the division error. -/
theorem akaikeScores_error_kind (logQ act : ℚ → ℚ) (solver : Mat → Vec × ℚ)
    (n : ℕ) (X : Mat) (individuals : List Mat) (front : List ℕ) (e : PyError)
    (h : akaikeScores logQ act solver n X individuals front = .error e) :
    e = PyError.zeroDivisionError := by
  induction front with
  | nil =>
    unfold akaikeScores at h
    cases h
  | cons i rest ih =>
    simp only [akaikeScores] at h
    cases hinfo : information_criterion logQ act solver n X (individuals.getD i []) with
    | error e2 =>
      rw [hinfo] at h
      cases h
      exact ((information_criterion_error_iff logQ act solver n X
        (individuals.getD i []) _).mp hinfo).1
    | ok c =>
      rw [hinfo] at h
      cases hrest : akaikeScores logQ act solver n X individuals rest with
      | error e2 =>
        rw [hrest] at h
        cases h
        exact ih hrest
      | ok l =>
        rw [hrest] at h
        cases h

/-- C4 (amended): with a nonempty non-dominated front, `akaike_corrected`
selection fails — with Python's `ZeroDivisionError`, there being no
`DegenerateModelError` in the code — if and only if some candidate on the
front has effective parameter count `k` with `n - k - 1 = 0` (so `k = n - 1`
raises, while `k = n - 2` and even `k ≥ n`, where the denominator is
negative, still compute scores); the failure is triggered by any single such
candidate, not only when every candidate is degenerate. -/
theorem select_akaike_error_iff (logQ act : ℚ → ℚ) (solver : Mat → Vec × ℚ)
    (n : ℕ) (X : Mat) (individuals : List Mat) (front : List ℕ)
    (hfront : front ≠ []) :
    select_akaike logQ act solver n X individuals front =
        .error PyError.zeroDivisionError ↔
      ∃ i ∈ front, (n : ℤ) - (effectiveParams act solver X (individuals.getD i []) : ℤ)
        - 1 = 0 := by
  unfold select_akaike
  cases hscores : akaikeScores logQ act solver n X individuals front with
  | error e =>
    have he := akaikeScores_error_kind logQ act solver n X individuals front e hscores
    subst he
    simpa using (akaikeScores_error_iff logQ act solver n X individuals front).mp hscores
  | ok scores =>
    have hlen := akaikeScores_ok_length logQ act solver n X individuals front scores hscores
    have hne : scores ≠ [] := by
      intro hc
      subst hc
      exact hfront (List.length_eq_zero.mp hlen.symm)
    have hsortne : List.insertionSort pairLe scores ≠ [] := by
      intro hc
      have hperm := List.perm_insertionSort pairLe scores
      rw [hc] at hperm
      exact hne hperm.symm.eq_nil
    cases hsort : List.insertionSort pairLe scores with
    | nil => exact absurd hsort hsortne
    | cons p t =>
      simp only [hsort]
      constructor
      · intro h
        cases h
      · intro h
        obtain ⟨i, hi, hd⟩ := h
        have hcontra : akaikeScores logQ act solver n X individuals front =
            .error PyError.zeroDivisionError :=
          (akaikeScores_error_iff logQ act solver n X individuals front).mpr ⟨i, hi, hd⟩
        rw [hscores] at hcontra
        cases hcontra

/-- The candidate weight matrix of the C4 scenarios: four nonzero non-bias
weights. -/
def w1C : Mat := [[0, 0], [1, 1], [1, 1]]

/-- A least-squares stub returning an empty output layer and `rss = 1`. -/
def solverC : Mat → Vec × ℚ := fun _ => ([], 1)

/-- C4 counterexample: with `n = 3` samples the single front candidate `w1C`
has `k = 4` effective parameters, so `n - k - 1 = -2 ≤ 0` holds for every
candidate of the front — yet selection does not fail: the negative
denominator divides fine and the candidate is returned. -/
theorem select_akaike_counterexample :
    select_akaike id id solverC 3 [[1, 1]] [w1C] [0] = .ok w1C ∧
    (3 : ℤ) - (effectiveParams id solverC [[1, 1]] w1C : ℤ) - 1 ≤ 0 := by
  constructor
  · rfl
  · decide

/-- Witness for C4: the concrete front `[0]` is nonempty, and at `n = 3`
with candidate `[[0,0],[1,0],[0,1]]` (`k = 2 = n - 1`) the theorem's
equivalence holds; its right side is inhabited, so selection raises. -/
theorem select_akaike_error_iff_witness :
    (([0] : List ℕ) ≠ []) ∧
    (select_akaike id id solverC 3 [[1, 1]] [[[0, 0], [1, 0], [0, 1]]] [0] =
        .error PyError.zeroDivisionError ↔
      ∃ i ∈ ([0] : List ℕ), (3 : ℤ) -
        (effectiveParams id solverC [[1, 1]]
          (([[[0, 0], [1, 0], [0, 1]]] : List Mat).getD i []) : ℤ) - 1 = 0) :=
  ⟨by decide,
    select_akaike_error_iff id id solverC 3 [[1, 1]] [[[0, 0], [1, 0], [0, 1]]] [0]
      (by decide)⟩

/-! ### Determinism of genome evaluation (C8)

`EvoNN.objectives` (activation → least-squares → loss → complexity) and
`EvoDN2.objectives` (per-subnet forward pass and complexity → output-layer
optimization) call no random-sampling primitive: `random`/`np.random` appear
in `fit` (subset creation) and in the recombination operators, never in the
evaluation path.  To state this as a theorem, the embedding threads the
state of the pseudo-random source (`ℕ` stands in for numpy's global
`RandomState`) through every pipeline step exactly as Python's global RNG
would flow: a step that sampled would read and advance it; none does. -/

/-- `X_train[:, subsets[i]]`: column selection by a feature subset. -/
def selectCols (X : Mat) (cols : List ℕ) : Mat :=
  X.map (fun row => cols.map (fun j => row.getD j 0))

/-- The layer loop of `EvoDN2.activation` restricted to the forward value:
`out = in_nodes · layer[1:, :] + layer[0]`, then the activation. -/
def subnetForward (act : ℚ → ℚ) (x0 : Mat) (subnet : List Mat) : Mat :=
  subnet.foldl
    (fun iN layer => (matMul iN (dropBias layer)).map
      (fun r => (vecAdd r (biasRow layer)).map act)) x0

/-- `np.hstack`: column-wise concatenation of equally tall matrices. -/
def hstack (A B : Mat) : Mat := List.zipWith (fun r s => r ++ s) A B

/-- `EvoDN2.activation`: concatenate every subnet's forward output
column-wise and accumulate the network complexity. -/
def evodn2Activation (act : ℚ → ℚ) (X : Mat) (subsets : List (List ℕ))
    (num_samples : ℕ) (genome : List (List Mat)) : Mat × ℚ :=
  (genome.enum.foldl
      (fun acc p => hstack acc (subnetForward act (selectCols X (subsets.getD p.1 [])) p.2))
      (List.replicate num_samples []),
    evodn2ComplexityCode genome)

/-- `EvoDN2.optimize_layer` with `opt_func = "llsq"` and
`loss_func = "rmse"`: the least-squares solve is the abstract `solver`;
the training error is the root (abstract `sqrtQ`) of the mean squared
residual. -/
def optimize_layer (solver : Mat → Vec) (sqrtQ : ℚ → ℚ) (y_train : Vec)
    (activated_layer : Mat) : Vec × Vec × ℚ :=
  (solver activated_layer,
    matVecMul activated_layer (solver activated_layer),
    sqrtQ (((List.zipWith (fun a b => (a - b) ^ 2) y_train
      (matVecMul activated_layer (solver activated_layer))).sum) /
      (y_train.length : ℚ)))

/-- `EvoNN.activation` with the RNG state threaded through: no sampling. -/
def evonnActivationR (act : ℚ → ℚ) (X w1 : Mat) (s : ℕ) : Mat × ℕ :=
  (evonnActivation act X w1, s)

/-- `EvoNN.minimize_error` with the RNG state threaded through. -/
def minimize_errorR (solver : Mat → Vec × ℚ) (z : Mat) (s : ℕ) :
    (Vec × ℚ × Vec) × ℕ :=
  (minimize_error solver z, s)

/-- `EvoNN.loss_function` with the RNG state threaded through. -/
def loss_functionR (sqrtQ : ℚ → ℚ) (lossIsMse : Bool) (y pred : Vec) (s : ℕ) :
    ℚ × ℕ :=
  (loss_function sqrtQ lossIsMse y pred, s)

/-- `EvoNN.calculate_complexity` with the RNG state threaded through. -/
def calculate_complexityR (w1 : Mat) (s : ℕ) : ℕ × ℕ :=
  (calculate_complexity w1, s)

/-- `EvoNN.objectives`: activation, least-squares tail, loss and complexity
composed in source order, threading the RNG state through every step. -/
def evonnObjectivesR (act sqrtQ : ℚ → ℚ) (solver : Mat → Vec × ℚ)
    (lossIsMse : Bool) (X : Mat) (y : Vec) (w1 : Mat) (s : ℕ) : (ℚ × ℕ) × ℕ :=
  let az := evonnActivationR act X w1 s
  let me := minimize_errorR solver az.1 az.2
  let te := loss_functionR sqrtQ lossIsMse y me.1.2.2 me.2
  let cx := calculate_complexityR w1 te.2
  ((te.1, cx.1), cx.2)

/-- `EvoDN2.activation` with the RNG state threaded through. -/
def evodn2ActivationR (act : ℚ → ℚ) (X : Mat) (subsets : List (List ℕ))
    (num_samples : ℕ) (genome : List (List Mat)) (s : ℕ) : (Mat × ℚ) × ℕ :=
  (evodn2Activation act X subsets num_samples genome, s)

/-- `EvoDN2.optimize_layer` with the RNG state threaded through. -/
def optimize_layerR (solver : Mat → Vec) (sqrtQ : ℚ → ℚ) (y : Vec) (z : Mat)
    (s : ℕ) : (Vec × Vec × ℚ) × ℕ :=
  (optimize_layer solver sqrtQ y z, s)

/-- `EvoDN2.objectives`: activation (value and complexity) followed by the
output-layer optimization, threading the RNG state. -/
def evodn2ObjectivesR (act sqrtQ : ℚ → ℚ) (solver : Mat → Vec) (X : Mat)
    (y : Vec) (subsets : List (List ℕ)) (num_samples : ℕ)
    (genome : List (List Mat)) (s : ℕ) : (ℚ × ℚ) × ℕ :=
  let az := evodn2ActivationR act X subsets num_samples genome s
  let ol := optimize_layerR solver sqrtQ y az.1.1 az.2
  ((ol.1.2.2, az.1.2), ol.2)

/-- C8: genome evaluation is deterministic — a pure function of (genome,
dataset, configuration).  Both objective pipelines leave the RNG state
untouched, their results do not depend on the incoming RNG state, and
evaluating twice in sequence (the second call receiving the state left by
the first) returns identical objective vectors. -/
theorem evaluation_deterministic (act sqrtQ : ℚ → ℚ) (solver : Mat → Vec × ℚ)
    (solver2 : Mat → Vec) (lossIsMse : Bool) (X : Mat) (y : Vec) (w1 : Mat)
    (subsets : List (List ℕ)) (num_samples : ℕ) (genome : List (List Mat))
    (s1 s2 : ℕ) :
    ((evonnObjectivesR act sqrtQ solver lossIsMse X y w1 s1).1 =
        (evonnObjectivesR act sqrtQ solver lossIsMse X y w1 s2).1 ∧
      (evonnObjectivesR act sqrtQ solver lossIsMse X y w1 s1).2 = s1 ∧
      (evonnObjectivesR act sqrtQ solver lossIsMse X y w1
          (evonnObjectivesR act sqrtQ solver lossIsMse X y w1 s1).2).1 =
        (evonnObjectivesR act sqrtQ solver lossIsMse X y w1 s1).1) ∧
    ((evodn2ObjectivesR act sqrtQ solver2 X y subsets num_samples genome s1).1 =
        (evodn2ObjectivesR act sqrtQ solver2 X y subsets num_samples genome s2).1 ∧
      (evodn2ObjectivesR act sqrtQ solver2 X y subsets num_samples genome s1).2 = s1 ∧
      (evodn2ObjectivesR act sqrtQ solver2 X y subsets num_samples genome
          (evodn2ObjectivesR act sqrtQ solver2 X y subsets num_samples genome s1).2).1 =
        (evodn2ObjectivesR act sqrtQ solver2 X y subsets num_samples genome s1).1) :=
  ⟨⟨rfl, rfl, rfl⟩, ⟨rfl, rfl, rfl⟩⟩

/-! ### `Population.non_dominated`: two-objective sweep vs dominance sort (C1)

`Population.non_dominated` dispatches on the number of objective columns:
`pygmo.non_dominated_front_2d` for exactly two objectives and
`pygmo.fast_non_dominated_sorting` (first front) otherwise; the source
carries a "Fix this. check if nd2 and nds mean the same thing" comment.
Both algorithms are external pygmo primitives, so they are modelled from the
spec here: §3 defines the non-dominated front by weak/strict Pareto
dominance, and §4.3 describes the sweep as "total order by one objective
with a running best-so-far on the other".  A row is a `(ℚ × ℚ)` pair; the
sweep sorts lexicographically by (first objective, second objective, index)
and keeps a row iff its second objective strictly improves the running
best. -/

/-- First objective of row `i`. -/
def objA (objs : List (ℚ × ℚ)) (i : ℕ) : ℚ := (objs.getD i (0, 0)).1

/-- Second objective of row `i`. -/
def objB (objs : List (ℚ × ℚ)) (i : ℕ) : ℚ := (objs.getD i (0, 0)).2

/-- Modelled from the spec: Pareto dominance — weakly better in all
dimensions and strictly better in at least one (§3). -/
def dominates (p q : ℚ × ℚ) : Prop :=
  p.1 ≤ q.1 ∧ p.2 ≤ q.2 ∧ (p.1 < q.1 ∨ p.2 < q.2)

instance (p q : ℚ × ℚ) : Decidable (dominates p q) := by
  unfold dominates
  infer_instance

/-- Modelled from the spec: the first front of the general dominance sort —
the indices whose rows no other row dominates. -/
def ndsFront0 (objs : List (ℚ × ℚ)) : List ℕ :=
  (List.range objs.length).filter
    (fun i => decide (∀ j ∈ List.range objs.length,
      ¬ dominates (objs.getD j (0, 0)) (objs.getD i (0, 0))))

/-- The sweep's total order: lexicographic on (first objective, second
objective, index). -/
def keyLe (objs : List (ℚ × ℚ)) (i j : ℕ) : Prop :=
  objA objs i < objA objs j ∨
    (objA objs i = objA objs j ∧
      (objB objs i < objB objs j ∨ (objB objs i = objB objs j ∧ i ≤ j)))

instance (objs : List (ℚ × ℚ)) : DecidableRel (keyLe objs) := fun i j => by
  unfold keyLe
  infer_instance

/-- Strictly earlier in the sweep's total order. -/
def keyLt (objs : List (ℚ × ℚ)) (i j : ℕ) : Prop := keyLe objs i j ∧ i ≠ j

/-- The scan of the two-objective sweep: keep an index iff its second
objective strictly improves the running best-so-far; the best-so-far is the
minimum over all scanned rows. -/
def sweepGo (b : ℕ → ℚ) : List ℕ → Option ℚ → List ℕ
  | [], _ => []
  | i :: rest, none => i :: sweepGo b rest (some (b i))
  | i :: rest, some best =>
    if b i < best then i :: sweepGo b rest (some (b i)) else sweepGo b rest (some best)

/-- Modelled from the spec: the specialized two-objective sweep — sort the
indices by the total order, then scan with a running best-so-far on the
second objective. -/
def nd2Sweep (objs : List (ℚ × ℚ)) : List ℕ :=
  sweepGo (objB objs) (List.insertionSort (keyLe objs) (List.range objs.length)) none

theorem keyLe_total (objs : List (ℚ × ℚ)) (i j : ℕ) :
    keyLe objs i j ∨ keyLe objs j i := by
  unfold keyLe
  rcases lt_trichotomy (objA objs i) (objA objs j) with ha | ha | ha
  · exact Or.inl (Or.inl ha)
  · rcases lt_trichotomy (objB objs i) (objB objs j) with hb | hb | hb
    · exact Or.inl (Or.inr ⟨ha, Or.inl hb⟩)
    · rcases Nat.le_total i j with hij | hij
      · exact Or.inl (Or.inr ⟨ha, Or.inr ⟨hb, hij⟩⟩)
      · exact Or.inr (Or.inr ⟨ha.symm, Or.inr ⟨hb.symm, hij⟩⟩)
    · exact Or.inr (Or.inr ⟨ha.symm, Or.inl hb⟩)
  · exact Or.inr (Or.inl ha)

theorem keyLe_trans (objs : List (ℚ × ℚ)) (i j k : ℕ)
    (h1 : keyLe objs i j) (h2 : keyLe objs j k) : keyLe objs i k := by
  unfold keyLe at h1 h2 ⊢
  rcases h1 with h1a | ⟨h1e, h1r⟩
  · rcases h2 with h2a | ⟨h2e, _⟩
    · exact Or.inl (lt_trans h1a h2a)
    · exact Or.inl (lt_of_lt_of_eq h1a h2e)
  · rcases h2 with h2a | ⟨h2e, h2r⟩
    · exact Or.inl (lt_of_eq_of_lt h1e h2a)
    · refine Or.inr ⟨h1e.trans h2e, ?_⟩
      rcases h1r with h1b | ⟨h1be, h1i⟩
      · rcases h2r with h2b | ⟨h2be, _⟩
        · exact Or.inl (lt_trans h1b h2b)
        · exact Or.inl (lt_of_lt_of_eq h1b h2be)
      · rcases h2r with h2b | ⟨h2be, h2i⟩
        · exact Or.inl (lt_of_eq_of_lt h1be h2b)
        · exact Or.inr ⟨h1be.trans h2be, le_trans h1i h2i⟩

theorem keyLe_antisymm (objs : List (ℚ × ℚ)) (i j : ℕ)
    (h1 : keyLe objs i j) (h2 : keyLe objs j i) : i = j := by
  unfold keyLe at h1 h2
  rcases h1 with h1a | ⟨h1e, h1r⟩
  · rcases h2 with h2a | ⟨h2e, _⟩
    · exact absurd h2a (not_lt.mpr (le_of_lt h1a))
    · exact absurd h2e (ne_of_gt h1a)
  · rcases h2 with h2a | ⟨h2e, h2r⟩
    · exact absurd h2a (not_lt.mpr (le_of_eq h1e))
    · rcases h1r with h1b | ⟨h1be, h1i⟩
      · rcases h2r with h2b | ⟨h2be, _⟩
        · exact absurd h2b (not_lt.mpr (le_of_lt h1b))
        · exact absurd h2be (ne_of_gt h1b)
      · rcases h2r with h2b | ⟨h2be, h2i⟩
        · exact absurd h2b (not_lt.mpr (le_of_eq h1be))
        · exact le_antisymm h1i h2i

theorem sweepGo_subset (b : ℕ → ℚ) (l : List ℕ) (best : Option ℚ) (i : ℕ)
    (h : i ∈ sweepGo b l best) : i ∈ l := by
  induction l generalizing best with
  | nil => cases h
  | cons x rest ih =>
    cases best with
    | none =>
      rcases List.mem_cons.mp h with rfl | h2
      · exact List.mem_cons_self _ _
      · exact List.mem_cons_of_mem x (ih (some (b x)) h2)
    | some c =>
      by_cases hb : b x < c
      · rw [sweepGo, if_pos hb] at h
        rcases List.mem_cons.mp h with rfl | h2
        · exact List.mem_cons_self _ _
        · exact List.mem_cons_of_mem x (ih (some (b x)) h2)
      · rw [sweepGo, if_neg hb] at h
        exact List.mem_cons_of_mem x (ih (some c) h)

/-- Membership in the sweep's scan over a sorted duplicate-free index list:
an index survives iff it beats the incoming best-so-far and every
key-earlier index in the list has a strictly larger second objective. -/
theorem sweepGo_mem (objs : List (ℚ × ℚ)) (l : List ℕ) (best : Option ℚ) (i : ℕ)
    (hs : l.Pairwise (keyLe objs)) (hn : l.Nodup) :
    i ∈ sweepGo (objB objs) l best ↔
      i ∈ l ∧ (∀ c, best = some c → objB objs i < c) ∧
        ∀ j ∈ l, keyLt objs j i → objB objs i < objB objs j := by
  induction l generalizing best with
  | nil => simp [sweepGo]
  | cons x rest ih =>
    have hx : ∀ j ∈ rest, keyLe objs x j := (List.pairwise_cons.mp hs).1
    have hs2 : rest.Pairwise (keyLe objs) := (List.pairwise_cons.mp hs).2
    have hxr : x ∉ rest := (List.nodup_cons.mp hn).1
    have hn2 : rest.Nodup := (List.nodup_cons.mp hn).2
    have keyx : ∀ j ∈ x :: rest, keyLt objs j x → False := by
      intro j hj hjx
      rcases List.mem_cons.mp hj with rfl | hjr
      · exact hjx.2 rfl
      · exact hjx.2 (keyLe_antisymm objs j x hjx.1 (hx j hjr))
    have keymem : ∀ j, j ∈ rest → keyLt objs x j := by
      intro j hj
      refine ⟨hx j hj, ?_⟩
      intro hxy
      exact hxr (hxy ▸ hj)
    by_cases hix : i = x
    · subst hix
      cases best with
      | none =>
        rw [sweepGo]
        constructor
        · intro _
          refine ⟨List.mem_cons_self i rest, ?_, ?_⟩
          · intro c hc
            cases hc
          · intro j hj hjx
            exact (keyx j hj hjx).elim
        · intro _
          exact List.mem_cons_self i _
      | some c =>
        by_cases hb : objB objs i < c
        · rw [sweepGo, if_pos hb]
          constructor
          · intro _
            refine ⟨List.mem_cons_self i rest, ?_, ?_⟩
            · intro c2 hc2
              cases hc2
              exact hb
            · intro j hj hjx
              exact (keyx j hj hjx).elim
          · intro _
            exact List.mem_cons_self i _
        · rw [sweepGo, if_neg hb]
          constructor
          · intro h
            exact absurd (sweepGo_subset _ _ _ _ h) hxr
          · intro h
            exact absurd (h.2.1 c rfl) hb
    · have hmem : i ∈ x :: rest ↔ i ∈ rest := by
        constructor
        · intro h
          rcases List.mem_cons.mp h with rfl | h2
          · exact absurd rfl hix
          · exact h2
        · exact List.mem_cons_of_mem x
      have hxlt : i ∈ rest → keyLt objs x i := fun h => keymem i h
      cases best with
      | none =>
        rw [sweepGo, List.mem_cons]
        constructor
        · intro h
          rcases h with rfl | h2
          · exact absurd rfl hix
          · obtain ⟨h2m, h2b, h2r⟩ := (ih (some (objB objs x)) hs2 hn2).mp h2
            refine ⟨hmem.mpr h2m, ?_, ?_⟩
            · intro c hc
              cases hc
            · intro j hj hjx
              rcases List.mem_cons.mp hj with rfl | hjr
              · exact h2b (objB objs j) rfl
              · exact h2r j hjr hjx
        · rintro ⟨h1, _, h3⟩
          right
          refine (ih (some (objB objs x)) hs2 hn2).mpr ⟨hmem.mp h1, ?_, ?_⟩
          · intro c hc
            cases hc
            exact h3 x (List.mem_cons_self x rest) (hxlt (hmem.mp h1))
          · intro j hj hjx
            exact h3 j (List.mem_cons_of_mem x hj) hjx
      | some c =>
        by_cases hb : objB objs x < c
        · rw [sweepGo, if_pos hb, List.mem_cons]
          constructor
          · intro h
            rcases h with rfl | h2
            · exact absurd rfl hix
            · obtain ⟨h2m, h2b, h2r⟩ := (ih (some (objB objs x)) hs2 hn2).mp h2
              have hbx : objB objs i < objB objs x := h2b (objB objs x) rfl
              refine ⟨hmem.mpr h2m, ?_, ?_⟩
              · intro c2 hc2
                cases hc2
                exact lt_trans hbx hb
              · intro j hj hjx
                rcases List.mem_cons.mp hj with rfl | hjr
                · exact hbx
                · exact h2r j hjr hjx
          · rintro ⟨h1, _, h3⟩
            right
            refine (ih (some (objB objs x)) hs2 hn2).mpr ⟨hmem.mp h1, ?_, ?_⟩
            · intro c2 hc2
              cases hc2
              exact h3 x (List.mem_cons_self x rest) (hxlt (hmem.mp h1))
            · intro j hj hjx
              exact h3 j (List.mem_cons_of_mem x hj) hjx
        · rw [sweepGo, if_neg hb]
          have hcx : c ≤ objB objs x := not_lt.mp hb
          constructor
          · intro h
            obtain ⟨h2m, h2b, h2r⟩ := (ih (some c) hs2 hn2).mp h
            have hic : objB objs i < c := h2b c rfl
            refine ⟨hmem.mpr h2m, ?_, ?_⟩
            · intro c2 hc2
              cases hc2
              exact hic
            · intro j hj hjx
              rcases List.mem_cons.mp hj with rfl | hjr
              · exact lt_of_lt_of_le hic hcx
              · exact h2r j hjr hjx
          · rintro ⟨h1, h2, h3⟩
            refine (ih (some c) hs2 hn2).mpr ⟨hmem.mp h1, h2, ?_⟩
            intro j hj hjx
            exact h3 j (List.mem_cons_of_mem x hj) hjx

/-- Closed-form membership in the two-objective sweep. -/
theorem nd2Sweep_mem (objs : List (ℚ × ℚ)) (i : ℕ) :
    i ∈ nd2Sweep objs ↔
      i < objs.length ∧
        ∀ j, j < objs.length → keyLt objs j i → objB objs i < objB objs j := by
  haveI : IsTotal ℕ (keyLe objs) := ⟨keyLe_total objs⟩
  haveI : IsTrans ℕ (keyLe objs) := ⟨fun a b c => keyLe_trans objs a b c⟩
  have hperm := List.perm_insertionSort (keyLe objs) (List.range objs.length)
  have hsorted : (List.insertionSort (keyLe objs) (List.range objs.length)).Pairwise
      (keyLe objs) := List.sorted_insertionSort (keyLe objs) (List.range objs.length)
  have hnodup : (List.insertionSort (keyLe objs) (List.range objs.length)).Nodup :=
    hperm.nodup_iff.mpr (List.nodup_range objs.length)
  rw [nd2Sweep, sweepGo_mem objs _ none i hsorted hnodup]
  constructor
  · rintro ⟨h1, _, h3⟩
    refine ⟨List.mem_range.mp (hperm.mem_iff.mp h1), ?_⟩
    intro j hj hjx
    exact h3 j (hperm.mem_iff.mpr (List.mem_range.mpr hj)) hjx
  · rintro ⟨h1, h3⟩
    refine ⟨hperm.mem_iff.mpr (List.mem_range.mpr h1), ?_, ?_⟩
    · intro c hc
      cases hc
    · intro j hj hjx
      exact h3 j (List.mem_range.mp (hperm.mem_iff.mp hj)) hjx

/-- Closed-form membership in the general dominance front. -/
theorem ndsFront0_mem (objs : List (ℚ × ℚ)) (i : ℕ) :
    i ∈ ndsFront0 objs ↔
      i < objs.length ∧
        ∀ j, j < objs.length →
          ¬ dominates (objs.getD j (0, 0)) (objs.getD i (0, 0)) := by
  unfold ndsFront0
  rw [List.mem_filter, List.mem_range]
  constructor
  · intro ⟨h1, h2⟩
    refine ⟨h1, ?_⟩
    intro j hj
    exact of_decide_eq_true h2 j (List.mem_range.mpr hj)
  · intro ⟨h1, h2⟩
    refine ⟨h1, decide_eq_true ?_⟩
    intro j hj
    exact h2 j (List.mem_range.mp hj)

theorem nodup_getD_inj (objs : List (ℚ × ℚ)) (h : objs.Nodup) (i j : ℕ)
    (hi : i < objs.length) (hj : j < objs.length)
    (heq : objs.getD i (0, 0) = objs.getD j (0, 0)) : i = j := by
  rw [List.getD_eq_getElem objs (0, 0) hi, List.getD_eq_getElem objs (0, 0) hj] at heq
  exact (List.Nodup.getElem_inj_iff h).mp heq

/-- C1 (amended): for an objective matrix with at least one row, two
objective columns, and pairwise-distinct rows, the index set produced by the
specialized two-objective sweep equals the index set produced by the general
dominance sort (order-independent set equality).  With duplicate rows the
two differ: see the counterexample. -/
theorem nd2_sweep_eq_nds_front (objs : List (ℚ × ℚ)) (h1 : objs ≠ [])
    (h2 : objs.Nodup) :
    (nd2Sweep objs).toFinset = (ndsFront0 objs).toFinset := by
  apply Finset.ext
  intro i
  rw [List.mem_toFinset, List.mem_toFinset, nd2Sweep_mem, ndsFront0_mem]
  constructor
  · intro ⟨hlen, H⟩
    refine ⟨hlen, ?_⟩
    intro j hj hdom
    obtain ⟨hd1, hd2, hd3⟩ := hdom
    have hji : j ≠ i := by
      intro hc
      subst hc
      rcases hd3 with hd3 | hd3
      · exact lt_irrefl _ hd3
      · exact lt_irrefl _ hd3
    have hkey : keyLe objs j i := by
      rcases lt_or_eq_of_le hd1 with hlt | heq
      · exact Or.inl hlt
      · refine Or.inr ⟨heq, ?_⟩
        rcases hd3 with hd3 | hd3
        · exact absurd heq (ne_of_lt hd3)
        · exact Or.inl hd3
    have := H j hj ⟨hkey, hji⟩
    exact absurd hd2 (not_le.mpr this)
  · intro ⟨hlen, G⟩
    refine ⟨hlen, ?_⟩
    intro j hj hjx
    obtain ⟨hkey, hji⟩ := hjx
    rcases hkey with hlt | ⟨heqa, hrest⟩
    · by_contra hc
      exact G j hj ⟨le_of_lt hlt, not_lt.mp hc, Or.inl hlt⟩
    · rcases hrest with hltb | ⟨heqb, hle⟩
      · exact absurd (G j hj ⟨le_of_eq heqa, le_of_lt hltb, Or.inr hltb⟩) (fun h => h)
      · exfalso
        apply hji
        apply nodup_getD_inj objs h2 j i hj hlen
        exact Prod.ext heqa heqb

/-- C1 counterexample: on the duplicated-row matrix `[(1,5), (1,5)]` the
sweep keeps only the first duplicate (`{0}`) while the dominance front keeps
both (`{0, 1}`): the two paths do not agree on all matrices with at least
one row. -/
theorem nd2_sweep_counterexample :
    (nd2Sweep [((1 : ℚ), (5 : ℚ)), (1, 5)]).toFinset ≠
      (ndsFront0 [((1 : ℚ), (5 : ℚ)), (1, 5)]).toFinset := by
  decide

/-- Witness for C1: the spec's scenario-B matrix is nonempty and
duplicate-free, so the amended equivalence applies to it. -/
theorem nd2_sweep_eq_nds_front_witness :
    (([((1 : ℚ), (5 : ℚ)), (2, 3), (3, 1), (2, 2)] : List (ℚ × ℚ)) ≠ [] ∧
      ([((1 : ℚ), (5 : ℚ)), (2, 3), (3, 1), (2, 2)] : List (ℚ × ℚ)).Nodup) ∧
    (nd2Sweep [((1 : ℚ), (5 : ℚ)), (2, 3), (3, 1), (2, 2)]).toFinset =
      (ndsFront0 [((1 : ℚ), (5 : ℚ)), (2, 3), (3, 1), (2, 2)]).toFinset :=
  ⟨⟨by decide, by decide⟩,
    nd2_sweep_eq_nds_front [((1 : ℚ), (5 : ℚ)), (2, 3), (3, 1), (2, 2)]
      (by decide) (by decide)⟩

end PyRVEA
